import Mathlib

/- Shallow embedding of the PP pyrolysis-oil bin allocator and harmonized
   table builder (pp_bins_grouped_plot.py).  Python floats are modelled as
   rationals; the Python dict keyed by bin label is modelled as an
   association list whose keys are unique (the dict comprehension that
   initializes it deduplicates labels). -/

/- A standard carbon-number bin: one entry (low, high, label) of the BINS
   configuration list. -/
structure RBin where
  low : Int
  high : Int
  label : String
deriving DecidableEq

/- One reported range of a paper, after numeric decoding: low and high are
   the int()-converted bounds and pct the float()-converted percentage. -/
structure ReportedRange where
  low : Int
  high : Int
  pct : ℚ
deriving DecidableEq

/- The fixed standard bins of the script (constant BINS). -/
def BINS : List RBin :=
  [⟨4, 5, "C4–C5"⟩,
   ⟨6, 10, "C6–C10"⟩,
   ⟨11, 15, "C11–C15"⟩,
   ⟨16, 20, "C16–C20"⟩,
   ⟨21, 40, "C21–C40"⟩]

/- The accumulator dict: out = (dict comprehension over bins), one entry per
   distinct label, value 0.0, in first-occurrence order. -/
def initOut (bins : List RBin) : List (String × ℚ) :=
  bins.foldl
    (fun m b => if m.any (fun p => p.1 == b.label) then m else m ++ [(b.label, 0)])
    []

/- max_high = max(h for _, h, _ in bins).  Python max raises ValueError on
   an empty sequence; the headD default is only reached off that domain and
   is never relied upon. -/
def max_high (bins : List RBin) : Int :=
  bins.foldl (fun acc b => max acc b.high) (bins.headD ⟨0, 0, ""⟩).high

/- out[name] += x on the accumulator dict (the key is present and unique,
   so updating every matching entry coincides with the dict update). -/
def addTo (m : List (String × ℚ)) (k : String) (x : ℚ) : List (String × ℚ) :=
  m.map (fun p => if p.1 == k then (p.1, p.2 + x) else p)

/- The inner loop body over one bin (L, U, name): compute the integer
   overlap of the clipped range [a, b] with [L, U]; when it is non-empty,
   add pct * (overlap_count / width) to that bin accumulator. -/
def binStep (a b width : Int) (pct : ℚ) (m : List (String × ℚ)) (bin : RBin) :
    List (String × ℚ) :=
  let overlap_low := max a bin.low
  let overlap_high := min b bin.high
  if overlap_low ≤ overlap_high then
    addTo m bin.label
      (pct * (((overlap_high - overlap_low + 1 : Int) : ℚ) / ((width : Int) : ℚ)))
  else m

/- The integer overlap-unit count of a clipped range [a, b] with one bin,
   0 when the overlap is empty (the inner loop then adds nothing). -/
def overlapCount (a b : Int) (bin : RBin) : Int :=
  let overlap_low := max a bin.low
  let overlap_high := min b bin.high
  if overlap_low ≤ overlap_high then overlap_high - overlap_low + 1 else 0

/- The body of the outer loop for one reported range: clip the high bound
   to mh, skip a degenerate range, compute the inclusive width, and fold
   the inner bin loop over the bins. -/
def processRange (bins : List RBin) (mh : Int) (m : List (String × ℚ))
    (rr : ReportedRange) : List (String × ℚ) :=
  let a := rr.low
  let b := if rr.high > mh then mh else rr.high
  if a > b then m
  else
    let width := b - a + 1
    if width ≤ 0 then m
    else bins.foldl (binStep a b width rr.pct) m

/- allocate_to_bins before the gentle-normalization step: the accumulator
   after both loops. -/
def allocRaw (bins : List RBin) (reported_ranges : List ReportedRange) :
    List (String × ℚ) :=
  reported_ranges.foldl (processRange bins (max_high bins)) (initOut bins)

/- total = sum(out.values()). -/
def sumValues (m : List (String × ℚ)) : ℚ := (m.map Prod.snd).sum

/- allocate_to_bins: distribute the reported ranges over the bins by
   overlap-count proportion, then gently normalize to 100 when
   99.0 <= total <= 101.0 and total != 0. -/
def allocate_to_bins (bins : List RBin) (reported_ranges : List ReportedRange) :
    List (String × ℚ) :=
  let out := allocRaw bins reported_ranges
  let total := sumValues out
  if (99 ≤ total ∧ total ≤ 101) ∧ total ≠ 0 then
    out.map (fun p => (p.1, p.2 * (100 / total)))
  else out

/- Dict lookup in an allocation result, defaulting to 0 (every configured
   label is present in real output, so the default is never reached). -/
def getVal (m : List (String × ℚ)) (k : String) : ℚ :=
  match m.find? (fun p => p.1 == k) with
  | some p => p.2
  | none => 0

/- The labels of the configured bins, in order. -/
def binLabels : List String := BINS.map (fun b => b.label)

/- Round a rational to the nearest integer, ties to even: the rounding mode
   of numpy/pandas used by DataFrame.round. -/
def roundHalfEven (q : ℚ) : Int :=
  let f := ⌊q⌋
  let frac := q - (f : ℚ)
  if frac < 1/2 then f
  else if 1/2 < frac then f + 1
  else if f % 2 = 0 then f else f + 1

/- DataFrame.round(3): round a value to 3 decimal digits (ties to even),
   modelled on exact rationals. -/
def round3 (q : ℚ) : ℚ := ((roundHalfEven (q * 1000) : Int) : ℚ) / 1000

/- A decoded JSON value, as produced by json.loads: numbers are modelled as
   rationals, objects as key-value lists with unique keys (Python dicts). -/
inductive JVal where
  | jnum (q : ℚ)
  | jstr (s : String)
  | jbool (b : Bool)
  | jnull
  | jarr (l : List JVal)
  | jobj (o : List (String × JVal))

/- Python dict access rr[k] on a decoded object: the value at key k, or a
   KeyError if the key is missing. -/
def objField (o : List (String × JVal)) (k : String) : Except String JVal :=
  match o.find? (fun p => p.1 == k) with
  | some p => Except.ok p.2
  | none => Except.error "missing field"

/- int(x) on a rational float value: truncation toward zero. -/
def ratTrunc (q : ℚ) : Int := if q < 0 then -⌊-q⌋ else ⌊q⌋

/- The ASCII whitespace that int()/float() strip from string arguments
   (Python also strips some non-ASCII unicode spaces; like non-ASCII
   digits, those are outside this model). -/
def isPyWs (c : Char) : Bool :=
  c = ' ' ∨ c = '\t' ∨ c = '\n' ∨ c = '\r' ∨ c = '\x0b' ∨ c = '\x0c'

/- Strip leading and trailing whitespace from a character list. -/
def stripWs (l : List Char) : List Char :=
  ((l.dropWhile isPyWs).reverse.dropWhile isPyWs).reverse

/- Consume a run of decimal digits with single underscores allowed between
   digits (the Python numeric-literal rule): returns the value read, the
   count of digits read, and the unread rest. -/
def pyDigitsRun : Nat → Nat → List Char → Nat × Nat × List Char
  | acc, cnt, '_' :: c :: rest =>
    if cnt ≠ 0 ∧ c.isDigit then
      pyDigitsRun (acc * 10 + (c.toNat - '0'.toNat)) (cnt + 1) rest
    else (acc, cnt, '_' :: c :: rest)
  | acc, cnt, c :: rest =>
    if c.isDigit then
      pyDigitsRun (acc * 10 + (c.toNat - '0'.toNat)) (cnt + 1) rest
    else (acc, cnt, c :: rest)
  | acc, cnt, [] => (acc, cnt, [])

/- int(s) on a string: optional surrounding whitespace, an optional sign,
   then a nonempty digit run that consumes the whole remainder.  None
   models ValueError. -/
def pyIntOfStr (s : String) : Option Int :=
  let core : List Char → Option Int := fun l =>
    match pyDigitsRun 0 0 l with
    | (v, cnt, rest) => if cnt ≠ 0 ∧ rest = [] then some (v : Int) else none
  match stripWs s.toList with
  | '+' :: rest => core rest
  | '-' :: rest => (core rest).map Neg.neg
  | l => core l

/- The exponent digits of a float literal: a nonempty digit run consuming
   the whole remainder. -/
def pyExpDigits (l : List Char) : Option Nat :=
  match pyDigitsRun 0 0 l with
  | (v, cnt, rest) => if cnt ≠ 0 ∧ rest = [] then some v else none

/- The optional exponent part of a float literal, applied to the mantissa
   already read: nothing, or e/E with an optional sign and digits. -/
def pyExpPart (mant : ℚ) : List Char → Option ℚ
  | [] => some mant
  | 'e' :: '+' :: r => (pyExpDigits r).map (fun ev => mant * (10 : ℚ) ^ ev)
  | 'e' :: '-' :: r => (pyExpDigits r).map (fun ev => mant / (10 : ℚ) ^ ev)
  | 'e' :: r => (pyExpDigits r).map (fun ev => mant * (10 : ℚ) ^ ev)
  | 'E' :: '+' :: r => (pyExpDigits r).map (fun ev => mant * (10 : ℚ) ^ ev)
  | 'E' :: '-' :: r => (pyExpDigits r).map (fun ev => mant / (10 : ℚ) ^ ev)
  | 'E' :: r => (pyExpDigits r).map (fun ev => mant * (10 : ℚ) ^ ev)
  | _ => none

/- The body of a finite float literal after sign removal:
   digits [. digits] [exponent], with at least one mantissa digit. -/
def pyFloatCore (l : List Char) : Option ℚ :=
  match pyDigitsRun 0 0 l with
  | (ip, ic, r1) =>
    match r1 with
    | '.' :: r2 =>
      match pyDigitsRun 0 0 r2 with
      | (fp, fc, r3) =>
        if ic + fc ≠ 0 then
          pyExpPart ((ip : ℚ) + (fp : ℚ) / (10 : ℚ) ^ fc) r3
        else none
    | _ => if ic ≠ 0 then pyExpPart (ip : ℚ) r1 else none

/- float(s) on a string: optional surrounding whitespace and sign, then a
   finite decimal float literal.  Python additionally accepts the
   non-finite literals inf/infinity/nan; non-finite floats have no rational
   counterpart, so they sit outside the floats-as-rationals model used
   throughout this file.  None models ValueError. -/
def pyFloatOfStr (s : String) : Option ℚ :=
  match stripWs s.toList with
  | '+' :: rest => pyFloatCore rest
  | '-' :: rest => (pyFloatCore rest).map Neg.neg
  | l => pyFloatCore l

/- int(x) on a decoded JSON value (line 46 of the source): numbers truncate
   toward zero, booleans read as 1 and 0, strings must be integer
   literals; anything else raises. -/
def pyInt : JVal → Except String Int
  | .jnum q => Except.ok (ratTrunc q)
  | .jbool b => Except.ok (if b then 1 else 0)
  | .jstr s =>
    match pyIntOfStr s with
    | some n => Except.ok n
    | none => Except.error "invalid literal for int"
  | _ => Except.error "int argument must be a string or a number"

/- float(x) on a decoded JSON value: numbers read exactly, booleans as
   1 and 0, strings must be float literals; anything else raises. -/
def pyFloat : JVal → Except String ℚ
  | .jnum q => Except.ok q
  | .jbool b => Except.ok (if b then 1 else 0)
  | .jstr s =>
    match pyFloatOfStr s with
    | some q => Except.ok q
    | none => Except.error "could not convert string to float"
  | _ => Except.error "float argument must be a string or a number"

/- Decode one reported-range entry, in source order:
   a = int(rr["low"]); b = int(rr["high"]); pct = float(rr["pct"]);
   any failure aborts with the error. -/
def parseRange : JVal → Except String ReportedRange
  | .jobj o => do
      let lv ← objField o "low"
      let a ← pyInt lv
      let hv ← objField o "high"
      let b ← pyInt hv
      let pv ← objField o "pct"
      let pct ← pyFloat pv
      Except.ok ⟨a, b, pct⟩
  | _ => Except.error "range entry is not an object"

/- Decode a ReportedRangesJSON value: it must be an array of range objects;
   iterating anything else fails when the entries are accessed as dicts. -/
def parseRanges : JVal → Except String (List ReportedRange)
  | .jarr l => l.mapM parseRange
  | _ => Except.error "ranges value is not an array"

/- The loop body of build_harmonized_table for one input record (Paper,
   decoded ReportedRangesJSON): decode the ranges, delegate to the
   allocator, and lay the row out in the fixed bin-label column order,
   rounded to 3 decimals. -/
def buildRow (r : String × JVal) : Except String (String × List ℚ) := do
  let ranges ← parseRanges r.2
  let bucketed := allocate_to_bins BINS ranges
  Except.ok (r.1, BINS.map fun b => round3 (getVal bucketed b.label))

/- build_harmonized_table: one row per input record, in input order.  The
   first decoding failure aborts the whole batch with the error (no partial
   table). -/
def build_harmonized_table (records : List (String × JVal)) :
    Except String (List (String × List ℚ)) :=
  records.mapM buildRow

/- A decoded value int() can read: a number, a boolean, or an
   integer-literal string. -/
def IntReadable : JVal → Prop
  | .jnum _ => True
  | .jbool _ => True
  | .jstr s => (pyIntOfStr s).isSome = true
  | _ => False

/- A decoded value float() can read: a number, a boolean, or a
   float-literal string. -/
def FloatReadable : JVal → Prop
  | .jnum _ => True
  | .jbool _ => True
  | .jstr s => (pyFloatOfStr s).isSome = true
  | _ => False

/- Field k of a decoded object is present and its value satisfies P. -/
def FieldIs (o : List (String × JVal)) (k : String) (P : JVal → Prop) : Prop :=
  match o.find? (fun p => p.1 == k) with
  | some p => P p.2
  | none => False

/- One reported-range entry decodes without error: an object whose low and
   high fields int() can read and whose pct field float() can read. -/
def WellFormedEntry : JVal → Prop
  | .jobj o =>
    FieldIs o "low" IntReadable ∧ FieldIs o "high" IntReadable ∧
      FieldIs o "pct" FloatReadable
  | _ => False

/- A ReportedRangesJSON value is well-formed: an array of well-formed range
   entries. -/
def WellFormedRanges : JVal → Prop
  | .jarr l => ∀ e ∈ l, WellFormedEntry e
  | _ => False

/- The scenario-1 input of the spec. -/
def scenario1 : List ReportedRange := [⟨6, 11, 50⟩, ⟨12, 20, 45⟩, ⟨21, 40, 5⟩]

/- A record whose single range lies fully inside one bin but reports only
   97 percent: total 97 is outside the normalization window. -/
def scenario97 : List ReportedRange := [⟨6, 10, 97⟩]

/- The scenario-2 input of the spec: a range entirely above max_high. -/
def scenario2 : List ReportedRange := [⟨50, 60, 10⟩]

/- ------------------------------------------------------------------ -/
/- Helper lemmas about the accumulator dict.                          -/
/- ------------------------------------------------------------------ -/

lemma allocRaw_scenario1_eq : allocRaw BINS scenario1 =
    [("C4–C5", 0), ("C6–C10", 125/3), ("C11–C15", 85/3),
     ("C16–C20", 25), ("C21–C40", 5)] := by
  simp +decide only [allocRaw, processRange, binStep, addTo, initOut, max_high,
    BINS, scenario1, List.foldl, List.any, List.map]
  norm_num

lemma sum_scenario1 : sumValues (allocRaw BINS scenario1) = 100 := by
  rw [allocRaw_scenario1_eq]; simp only [sumValues, List.map]; norm_num

lemma allocRaw_scenario97_eq : allocRaw BINS scenario97 =
    [("C4–C5", 0), ("C6–C10", 97), ("C11–C15", 0),
     ("C16–C20", 0), ("C21–C40", 0)] := by
  simp +decide only [allocRaw, processRange, binStep, addTo, initOut, max_high,
    BINS, scenario97, List.foldl, List.any, List.map]
  norm_num

lemma sum_scenario97 : sumValues (allocRaw BINS scenario97) = 97 := by
  rw [allocRaw_scenario97_eq]; simp only [sumValues, List.map]; norm_num

lemma addTo_keys (m : List (String × ℚ)) (k : String) (x : ℚ) :
    (addTo m k x).map Prod.fst = m.map Prod.fst := by
  unfold addTo
  rw [List.map_map]
  apply List.map_congr_left
  intro p _
  simp only [Function.comp_apply]
  split <;> rfl

lemma binStep_keys (a b w : Int) (p : ℚ) (m : List (String × ℚ)) (bin : RBin) :
    (binStep a b w p m bin).map Prod.fst = m.map Prod.fst := by
  simp only [binStep]
  split_ifs <;> first | exact addTo_keys .. | rfl

lemma foldl_binStep_keys (a b w : Int) (p : ℚ) :
    ∀ (bs : List RBin) (m : List (String × ℚ)),
      ((bs.foldl (binStep a b w p) m).map Prod.fst) = m.map Prod.fst := by
  intro bs
  induction bs with
  | nil => intro m; rfl
  | cons y t ih => intro m; rw [List.foldl_cons, ih, binStep_keys]

lemma processRange_keys (bins : List RBin) (mh : Int) (m : List (String × ℚ))
    (rr : ReportedRange) :
    (processRange bins mh m rr).map Prod.fst = m.map Prod.fst := by
  simp only [processRange]
  split_ifs <;> first | rfl | exact foldl_binStep_keys ..

lemma allocRaw_keys (bins : List RBin) (rs : List ReportedRange) :
    (allocRaw bins rs).map Prod.fst = (initOut bins).map Prod.fst := by
  unfold allocRaw
  generalize initOut bins = m
  induction rs generalizing m with
  | nil => rfl
  | cons rr t ih => rw [List.foldl_cons, ih, processRange_keys]

lemma sumValues_addTo (m : List (String × ℚ)) (k : String) (x : ℚ) :
    sumValues (addTo m k x) =
      sumValues m + (m.countP (fun p => p.1 == k) : ℚ) * x := by
  induction m with
  | nil => simp [addTo, sumValues]
  | cons p t ih =>
    simp only [addTo, List.map_cons, sumValues, List.sum_cons, List.countP_cons] at *
    by_cases h : p.1 == k
    · simp only [h, if_pos, if_true]
      push_cast
      rw [ih]
      ring
    · simp only [h, if_false, Bool.false_eq_true]
      push_cast
      rw [ih]
      ring

lemma countP_keys (m : List (String × ℚ)) (s : String) :
    m.countP (fun q => q.1 == s) = (m.map Prod.fst).countP (fun t => t == s) := by
  rw [List.countP_map]
  rfl

lemma addTo_cons_eq (p : String × ℚ) (t : List (String × ℚ)) (k : String)
    (x : ℚ) (h : p.1 = k) :
    addTo (p :: t) k x = (p.1, p.2 + x) :: addTo t k x := by
  unfold addTo
  rw [List.map_cons, if_pos (beq_iff_eq.mpr h)]

lemma addTo_cons_ne (p : String × ℚ) (t : List (String × ℚ)) (k : String)
    (x : ℚ) (h : p.1 ≠ k) :
    addTo (p :: t) k x = p :: addTo t k x := by
  unfold addTo
  rw [List.map_cons, if_neg (by simpa using h)]

lemma getVal_cons_eq (p : String × ℚ) (t : List (String × ℚ)) (k : String)
    (h : p.1 = k) : getVal (p :: t) k = p.2 := by
  unfold getVal
  rw [List.find?_cons, beq_iff_eq.mpr h]

lemma getVal_cons_ne (p : String × ℚ) (t : List (String × ℚ)) (k : String)
    (h : p.1 ≠ k) : getVal (p :: t) k = getVal t k := by
  unfold getVal
  rw [List.find?_cons, beq_eq_false_iff_ne.mpr h]

lemma getVal_addTo_ne (m : List (String × ℚ)) (k x' : String) (x : ℚ)
    (h : x' ≠ k) : getVal (addTo m k x) x' = getVal m x' := by
  induction m with
  | nil => rfl
  | cons p t ih =>
    by_cases hp : p.1 = k
    · have hpx : p.1 ≠ x' := by rw [hp]; exact Ne.symm h
      rw [addTo_cons_eq p t k x hp,
        getVal_cons_ne (p.1, p.2 + x) (addTo t k x) x' hpx,
        getVal_cons_ne p t x' hpx]
      exact ih
    · rw [addTo_cons_ne p t k x hp]
      by_cases hq : p.1 = x'
      · rw [getVal_cons_eq p (addTo t k x) x' hq, getVal_cons_eq p t x' hq]
      · rw [getVal_cons_ne p (addTo t k x) x' hq, getVal_cons_ne p t x' hq]
        exact ih

lemma getVal_addTo_mem (m : List (String × ℚ)) (k : String) (x : ℚ)
    (h : k ∈ m.map Prod.fst) : getVal (addTo m k x) k = getVal m k + x := by
  induction m with
  | nil => simp at h
  | cons p t ih =>
    by_cases hp : p.1 = k
    · rw [addTo_cons_eq p t k x hp,
        getVal_cons_eq (p.1, p.2 + x) (addTo t k x) k hp,
        getVal_cons_eq p t k hp]
    · have ht : k ∈ t.map Prod.fst := by
        rw [List.map_cons] at h
        rcases List.mem_cons.mp h with h2 | h2
        · exact absurd h2.symm hp
        · exact h2
      rw [addTo_cons_ne p t k x hp, getVal_cons_ne p (addTo t k x) k hp,
        getVal_cons_ne p t k hp]
      exact ih ht

lemma binStep_getVal (a b w : Int) (p : ℚ) (m : List (String × ℚ)) (bin : RBin)
    (s : String) (h : bin.label ∈ m.map Prod.fst) :
    getVal (binStep a b w p m bin) s =
      getVal m s +
        (if bin.label = s then p * ((overlapCount a b bin : ℚ) / (w : ℚ)) else 0) := by
  unfold binStep overlapCount
  by_cases hc : max a bin.low ≤ min b bin.high
  · simp only [if_pos hc]
    by_cases hl : bin.label = s
    · subst hl
      rw [getVal_addTo_mem m bin.label _ h, if_pos rfl]
    · rw [getVal_addTo_ne m bin.label s _ (Ne.symm hl), if_neg hl, add_zero]
  · simp only [if_neg hc]
    have : (if bin.label = s then p * (((0 : Int) : ℚ) / (w : ℚ)) else 0) = 0 := by
      split <;> norm_num
    rw [this, add_zero]

lemma foldl_binStep_getVal (a b w : Int) (p : ℚ) (s : String) :
    ∀ (bs : List RBin) (m : List (String × ℚ)),
      (∀ x ∈ bs, x.label ∈ m.map Prod.fst) →
      getVal (bs.foldl (binStep a b w p) m) s =
        getVal m s +
          ((bs.map fun x =>
            if x.label = s then p * ((overlapCount a b x : ℚ) / (w : ℚ)) else 0)).sum := by
  intro bs
  induction bs with
  | nil => intro m _; simp
  | cons y t ih =>
    intro m hmem
    simp only [List.foldl_cons, List.map_cons, List.sum_cons]
    rw [ih _ (fun x hx => by rw [binStep_keys]; exact hmem x (List.mem_cons_of_mem _ hx)),
      binStep_getVal a b w p m y s (hmem y (List.mem_cons_self _ _))]
    ring

lemma countP_binStep (a b w : Int) (p : ℚ) (m : List (String × ℚ)) (bin : RBin)
    (s : String) :
    (binStep a b w p m bin).countP (fun q => q.1 == s) =
      m.countP (fun q => q.1 == s) := by
  rw [countP_keys, countP_keys, binStep_keys]

lemma binStep_sum (a b w : Int) (p : ℚ) (m : List (String × ℚ)) (bin : RBin)
    (h : m.countP (fun q => q.1 == bin.label) = 1) :
    sumValues (binStep a b w p m bin) =
      sumValues m + p * ((overlapCount a b bin : ℚ) / (w : ℚ)) := by
  unfold binStep overlapCount
  by_cases hc : max a bin.low ≤ min b bin.high
  · simp only [if_pos hc]
    rw [sumValues_addTo, h]
    push_cast
    ring
  · simp only [if_neg hc]
    norm_num

lemma foldl_binStep_sum (a b w : Int) (p : ℚ) :
    ∀ (bs : List RBin) (m : List (String × ℚ)),
      (∀ x ∈ bs, m.countP (fun q => q.1 == x.label) = 1) →
      sumValues (bs.foldl (binStep a b w p) m) =
        sumValues m +
          ((bs.map fun x => p * ((overlapCount a b x : ℚ) / (w : ℚ)))).sum := by
  intro bs
  induction bs with
  | nil => intro m _; simp
  | cons y t ih =>
    intro m hcnt
    simp only [List.foldl_cons, List.map_cons, List.sum_cons]
    rw [ih _ (fun x hx => by
        rw [countP_binStep]; exact hcnt x (List.mem_cons_of_mem _ hx)),
      binStep_sum a b w p m y (hcnt y (List.mem_cons_self _ _))]
    ring

lemma initOut_values (bins : List RBin) : ∀ p ∈ initOut bins, p.2 = 0 := by
  unfold initOut
  suffices h : ∀ (l : List RBin) (acc : List (String × ℚ)),
      (∀ p ∈ acc, p.2 = 0) →
      ∀ p ∈ l.foldl
        (fun m b => if m.any (fun p => p.1 == b.label) then m else m ++ [(b.label, 0)])
        acc, p.2 = 0 by
    exact h bins [] (by simp)
  intro l
  induction l with
  | nil => intro acc hacc; exact hacc
  | cons y t ih =>
    intro acc hacc
    rw [List.foldl_cons]
    apply ih
    split
    · exact hacc
    · intro p hp
      rcases List.mem_append.mp hp with h | h
      · exact hacc p h
      · simp only [List.mem_singleton] at h
        rw [h]

lemma sumValues_initOut (bins : List RBin) : sumValues (initOut bins) = 0 := by
  unfold sumValues
  apply List.sum_eq_zero
  intro x hx
  rcases List.mem_map.mp hx with ⟨p, hp, rfl⟩
  exact initOut_values bins p hp

lemma getVal_initOut (bins : List RBin) (s : String) :
    getVal (initOut bins) s = 0 := by
  unfold getVal
  cases h : (initOut bins).find? (fun p => p.1 == s) with
  | none => rfl
  | some p => exact initOut_values bins p (List.mem_of_find?_eq_some h)

lemma foldl_initOut_keys_mono (l : List RBin) :
    ∀ (acc : List (String × ℚ)) (s : String), s ∈ acc.map Prod.fst →
      s ∈ (l.foldl
        (fun m b => if m.any (fun p => p.1 == b.label) then m else m ++ [(b.label, 0)])
        acc).map Prod.fst := by
  induction l with
  | nil => intro acc s h; exact h
  | cons y t ih =>
    intro acc s h
    rw [List.foldl_cons]
    apply ih
    split
    · exact h
    · rw [List.map_append, List.mem_append]
      exact Or.inl h

lemma initOut_mem_keys (bins : List RBin) :
    ∀ x ∈ bins, x.label ∈ (initOut bins).map Prod.fst := by
  unfold initOut
  suffices h : ∀ (l : List RBin) (acc : List (String × ℚ)),
      ∀ x ∈ l, x.label ∈ (l.foldl
        (fun m b => if m.any (fun p => p.1 == b.label) then m else m ++ [(b.label, 0)])
        acc).map Prod.fst by
    exact h bins []
  intro l
  induction l with
  | nil => intro acc x hx; simp at hx
  | cons y t ih =>
    intro acc x hx
    rw [List.foldl_cons]
    rcases List.mem_cons.mp hx with rfl | hx
    · apply foldl_initOut_keys_mono
      split
      · rename_i hany
        rcases List.any_eq_true.mp hany with ⟨p, hp, hpk⟩
        have : p.1 = x.label := by simpa using hpk
        exact this ▸ List.mem_map_of_mem Prod.fst hp
      · rw [List.map_append, List.mem_append]
        exact Or.inr (by simp)
    · exact ih _ x hx

lemma max_high_le_foldl (l : List RBin) :
    ∀ i : Int, i ≤ l.foldl (fun acc b => max acc b.high) i := by
  induction l with
  | nil => intro i; exact le_refl i
  | cons y t ih =>
    intro i
    rw [List.foldl_cons]
    exact le_trans (le_max_left i y.high) (ih _)

lemma mem_le_max_high (bins : List RBin) : ∀ x ∈ bins, x.high ≤ max_high bins := by
  unfold max_high
  generalize (bins.headD ⟨0, 0, ""⟩).high = i
  induction bins generalizing i with
  | nil => intro x hx; simp at hx
  | cons y t ih =>
    intro x hx
    rw [List.foldl_cons]
    rcases List.mem_cons.mp hx with rfl | hx
    · exact le_trans (le_max_right i x.high) (max_high_le_foldl t _)
    · exact ih _ x hx

lemma getVal_map_scale (m : List (String × ℚ)) (c : ℚ) (s : String) :
    getVal (m.map fun p => (p.1, p.2 * c)) s = getVal m s * c := by
  induction m with
  | nil => simp [getVal]
  | cons p t ih =>
    rw [List.map_cons]
    by_cases h : p.1 = s
    · rw [getVal_cons_eq (p.1, p.2 * c) (t.map fun p => (p.1, p.2 * c)) s h,
        getVal_cons_eq p t s h]
    · rw [getVal_cons_ne (p.1, p.2 * c) (t.map fun p => (p.1, p.2 * c)) s h,
        getVal_cons_ne p t s h]
      exact ih

/- ------------------------------------------------------------------ -/
/- Claim theorems.                                                    -/
/- ------------------------------------------------------------------ -/

/-- C1: on the scenario-1 ranges against the five default bins the allocator
returns exactly C4–C5 = 0, C6–C10 = 50·(5/6) = 125/3 ≈ 41.667,
C11–C15 = 50·(1/6) + 45·(4/9) = 85/3 ≈ 28.333, C16–C20 = 25, C21–C40 = 5;
the pre-normalization total is exactly 100 and the normalization step is a
no-op on these values. -/
theorem claim_c1_scenario1 :
    allocate_to_bins BINS scenario1 =
      [("C4–C5", 0), ("C6–C10", 125/3), ("C11–C15", 85/3),
       ("C16–C20", 25), ("C21–C40", 5)] ∧
    (125/3 : ℚ) = 50 * (5/6) ∧ (85/3 : ℚ) = 50 * (1/6) + 45 * (4/9) ∧
    sumValues (allocRaw BINS scenario1) = 100 ∧
    allocate_to_bins BINS scenario1 = allocRaw BINS scenario1 := by
  have halloc : allocate_to_bins BINS scenario1 = allocRaw BINS scenario1 := by
    rw [allocate_to_bins, sum_scenario1]
    norm_num [allocRaw_scenario1_eq]
  refine ⟨?_, by norm_num, by norm_num, sum_scenario1, halloc⟩
  rw [halloc, allocRaw_scenario1_eq]

/-- C4: the allocator rescales every bin value by 100/total exactly when the
pre-normalization total is nonzero and lies in the closed interval
[99, 101]; outside that window the values are returned as computed, and in
particular the scenario with raw total 97 is returned unchanged and its row
sums to 97, not 100. -/
theorem claim_c4_normalization_window :
    (∀ rs : List ReportedRange,
      ((99 ≤ sumValues (allocRaw BINS rs) ∧ sumValues (allocRaw BINS rs) ≤ 101) ∧
          sumValues (allocRaw BINS rs) ≠ 0 →
        allocate_to_bins BINS rs =
          (allocRaw BINS rs).map
            (fun p => (p.1, p.2 * (100 / sumValues (allocRaw BINS rs))))) ∧
      (¬ ((99 ≤ sumValues (allocRaw BINS rs) ∧ sumValues (allocRaw BINS rs) ≤ 101) ∧
          sumValues (allocRaw BINS rs) ≠ 0) →
        allocate_to_bins BINS rs = allocRaw BINS rs)) ∧
    allocate_to_bins BINS scenario97 = allocRaw BINS scenario97 ∧
    sumValues (allocate_to_bins BINS scenario97) = 97 := by
  have hmain : ∀ rs : List ReportedRange,
      ((99 ≤ sumValues (allocRaw BINS rs) ∧ sumValues (allocRaw BINS rs) ≤ 101) ∧
          sumValues (allocRaw BINS rs) ≠ 0 →
        allocate_to_bins BINS rs =
          (allocRaw BINS rs).map
            (fun p => (p.1, p.2 * (100 / sumValues (allocRaw BINS rs))))) ∧
      (¬ ((99 ≤ sumValues (allocRaw BINS rs) ∧ sumValues (allocRaw BINS rs) ≤ 101) ∧
          sumValues (allocRaw BINS rs) ≠ 0) →
        allocate_to_bins BINS rs = allocRaw BINS rs) := by
    intro rs
    constructor
    · intro h
      simp only [allocate_to_bins]
      rw [if_pos h]
    · intro h
      simp only [allocate_to_bins]
      rw [if_neg h]
  have h97 : allocate_to_bins BINS scenario97 = allocRaw BINS scenario97 := by
    refine (hmain scenario97).2 ?_
    rw [sum_scenario97]
    norm_num
  refine ⟨hmain, h97, ?_⟩
  rw [h97, sum_scenario97]

/-- C4 witness: the window test instantiated at the concrete total-97
scenario, discharging the negated window condition there. -/
theorem claim_c4_witness :
    allocate_to_bins BINS scenario97 = allocRaw BINS scenario97 :=
  (claim_c4_normalization_window.1 scenario97).2
    (by rw [sum_scenario97]; norm_num)

/-- C6: the high bound is clipped to max_high before allocation (processing
a range equals processing the range with its high bound clipped), a range
lying entirely above max_high is skipped and leaves the accumulator
unchanged, and the scenario-2 record (low 50, high 60, pct 10 against
max_high 40) yields the all-zero allocation. -/
theorem claim_c6_ceiling_discard :
    (∀ (m : List (String × ℚ)) (rr : ReportedRange),
      processRange BINS (max_high BINS) m rr =
        processRange BINS (max_high BINS) m
          ⟨rr.low, min rr.high (max_high BINS), rr.pct⟩) ∧
    (∀ (m : List (String × ℚ)) (rr : ReportedRange),
      max_high BINS < rr.low → processRange BINS (max_high BINS) m rr = m) ∧
    allocate_to_bins BINS scenario2 =
      [("C4–C5", 0), ("C6–C10", 0), ("C11–C15", 0), ("C16–C20", 0),
       ("C21–C40", 0)] := by
  refine ⟨?_, ?_, ?_⟩
  · intro m rr
    have hmh : max_high BINS = 40 := rfl
    rw [hmh]
    simp only [processRange]
    have hclip : (if (min rr.high 40 : Int) > 40 then (40 : Int) else min rr.high 40) =
        (if rr.high > 40 then (40 : Int) else rr.high) := by
      rcases le_or_lt rr.high 40 with h | h
      · rw [min_eq_left h]
      · rw [min_eq_right h.le, if_neg (lt_irrefl (40 : Int)), if_pos h]
    rw [hclip]
  · intro m rr h
    have hmh : max_high BINS = 40 := rfl
    rw [hmh] at h ⊢
    simp only [processRange]
    rw [if_pos (by rcases le_or_lt rr.high 40 with h2 | h2 <;> split <;> omega)]
  · have hraw : allocRaw BINS scenario2 =
        [("C4–C5", 0), ("C6–C10", 0), ("C11–C15", 0), ("C16–C20", 0),
         ("C21–C40", 0)] := by
      simp +decide only [allocRaw, processRange, binStep, addTo, initOut, max_high,
        BINS, scenario2, List.foldl, List.any, List.map]
    have htot : sumValues (allocRaw BINS scenario2) = 0 := by
      rw [hraw]; simp only [sumValues, List.map]; norm_num
    simp only [allocate_to_bins]
    rw [if_neg (by rw [htot]; norm_num), hraw]

/-- C6 witness: the skip rule applied to the concrete scenario-2 range
starting at 50, above the default ceiling 40. -/
theorem claim_c6_witness :
    processRange BINS (max_high BINS) (initOut BINS) ⟨50, 60, 10⟩ =
      initOut BINS :=
  claim_c6_ceiling_discard.2.1 (initOut BINS) ⟨50, 60, 10⟩ (by decide)

/-- C8: normalization is idempotent at the target: whenever the
pre-normalization total is exactly 100, the rescale map multiplies every
bin value by 100/100 = 1 and thus leaves the allocation unchanged, and the
allocator output equals the raw allocation. -/
theorem claim_c8_normalization_idempotent (rs : List ReportedRange)
    (h : sumValues (allocRaw BINS rs) = 100) :
    (allocRaw BINS rs).map
        (fun p => (p.1, p.2 * (100 / sumValues (allocRaw BINS rs)))) =
      allocRaw BINS rs ∧
    allocate_to_bins BINS rs = allocRaw BINS rs := by
  have hmap : (allocRaw BINS rs).map
      (fun p => (p.1, p.2 * (100 / sumValues (allocRaw BINS rs)))) =
      allocRaw BINS rs := by
    rw [h]
    have hone : ∀ p : String × ℚ, (p.1, p.2 * (100 / (100 : ℚ))) = p := by
      intro p; norm_num
    rw [List.map_congr_left (fun p _ => hone p)]
    exact List.map_id' _
  refine ⟨hmap, ?_⟩
  simp only [allocate_to_bins]
  rw [if_pos (by rw [h]; norm_num), hmap]

/-- C8 witness: scenario 1 has raw total exactly 100 and its normalization
is a no-op. -/
theorem claim_c8_witness :
    (allocRaw BINS scenario1).map
        (fun p => (p.1, p.2 * (100 / sumValues (allocRaw BINS scenario1)))) =
      allocRaw BINS scenario1 ∧
    allocate_to_bins BINS scenario1 = allocRaw BINS scenario1 :=
  claim_c8_normalization_idempotent scenario1 sum_scenario1

lemma overlap_sum_le_width (a b : Int) (h : a ≤ b) :
    (BINS.map (fun bin => overlapCount a b bin)).sum ≤ b - a + 1 := by
  simp only [BINS, overlapCount, List.map_cons, List.map_nil, List.sum_cons,
    List.sum_nil]
  split_ifs <;> omega

lemma sum_map_intCast (l : List RBin) (f : RBin → Int) :
    (l.map fun x => ((f x : Int) : ℚ)).sum = (((l.map f).sum : Int) : ℚ) := by
  induction l with
  | nil => simp
  | cons y t ih => simp [ih]

lemma contrib_sum_le (a b w : Int) (p : ℚ) (hp : 0 ≤ p) (hw : 0 < w)
    (hs : (BINS.map (fun bin => overlapCount a b bin)).sum ≤ w) :
    (BINS.map fun x => p * ((overlapCount a b x : ℚ) / (w : ℚ))).sum ≤ p := by
  have hwQ : (0 : ℚ) < (w : ℚ) := by exact_mod_cast hw
  have hrw : ∀ x ∈ BINS, p * ((overlapCount a b x : ℚ) / (w : ℚ)) =
      (p / (w : ℚ)) * ((overlapCount a b x : Int) : ℚ) := by
    intro x _
    field_simp
  rw [List.map_congr_left hrw, List.sum_map_mul_left, sum_map_intCast]
  have hSQ : (((BINS.map (fun bin => overlapCount a b bin)).sum : Int) : ℚ) ≤
      (w : ℚ) := by exact_mod_cast hs
  have h1 : p / (w : ℚ) * (((BINS.map (fun bin => overlapCount a b bin)).sum : Int) : ℚ) ≤
      p / (w : ℚ) * (w : ℚ) :=
    mul_le_mul_of_nonneg_left hSQ (div_nonneg hp hwQ.le)
  calc p / (w : ℚ) * (((BINS.map (fun bin => overlapCount a b bin)).sum : Int) : ℚ)
      ≤ p / (w : ℚ) * (w : ℚ) := h1
    _ = p := div_mul_cancel₀ p (ne_of_gt hwQ)

lemma countP_one_of_keys (m : List (String × ℚ)) (hkeys : m.map Prod.fst = binLabels) :
    ∀ x ∈ BINS, m.countP (fun q => q.1 == x.label) = 1 := by
  intro x hx
  rw [countP_keys, hkeys]
  simp only [BINS, List.mem_cons, List.not_mem_nil, or_false] at hx
  rcases hx with rfl | rfl | rfl | rfl | rfl <;> decide

lemma processRange_sum_le (m : List (String × ℚ)) (rr : ReportedRange)
    (hkeys : m.map Prod.fst = binLabels) (hp : 0 ≤ rr.pct) :
    sumValues (processRange BINS (max_high BINS) m rr) ≤ sumValues m + rr.pct := by
  simp only [processRange]
  generalize (if rr.high > max_high BINS then max_high BINS else rr.high) = b
  split_ifs with h1 h2
  · linarith
  · linarith
  · rw [foldl_binStep_sum rr.low b (b - rr.low + 1) rr.pct BINS m
      (countP_one_of_keys m hkeys)]
    have hw : (0 : Int) < b - rr.low + 1 := by omega
    have := contrib_sum_le rr.low b (b - rr.low + 1) rr.pct hp hw
      (overlap_sum_le_width rr.low b (by omega))
    linarith

lemma allocLoop_sum_le :
    ∀ (rs : List ReportedRange) (m : List (String × ℚ)),
      m.map Prod.fst = binLabels → (∀ rr ∈ rs, 0 ≤ rr.pct) →
      sumValues (rs.foldl (processRange BINS (max_high BINS)) m) ≤
        sumValues m + (rs.map (fun rr => rr.pct)).sum := by
  intro rs
  induction rs with
  | nil => intro m _ _; simp
  | cons rr t ih =>
    intro m hkeys hp
    simp only [List.foldl_cons, List.map_cons, List.sum_cons]
    have h1 := processRange_sum_le m rr hkeys (hp rr (List.mem_cons_self _ _))
    have h2 := ih (processRange BINS (max_high BINS) m rr)
      (by rw [processRange_keys, hkeys])
      (fun x hx => hp x (List.mem_cons_of_mem _ hx))
    linarith

/-- C2: for every list of reported ranges whose percentages are all
nonnegative, the sum of the allocator's per-bin values before the optional
normalization never exceeds the sum of the input percentages. -/
theorem claim_c2_mass_conservation (rs : List ReportedRange)
    (h : ∀ rr ∈ rs, 0 ≤ rr.pct) :
    sumValues (allocRaw BINS rs) ≤ (rs.map (fun rr => rr.pct)).sum := by
  have hmain := allocLoop_sum_le rs (initOut BINS)
    (by decide) h
  have h0 := sumValues_initOut BINS
  rw [allocRaw]
  linarith

/-- C2 witness: the bound instantiated on the concrete scenario-1 input,
whose percentages 50, 45 and 5 are nonnegative. -/
theorem claim_c2_witness :
    sumValues (allocRaw BINS scenario1) ≤ (scenario1.map (fun rr => rr.pct)).sum :=
  claim_c2_mass_conservation scenario1
    (by intro rr hr; fin_cases hr <;> norm_num)

lemma addTo_nonneg (m : List (String × ℚ)) (k : String) (x : ℚ)
    (hm : ∀ p ∈ m, 0 ≤ p.2) (hx : 0 ≤ x) : ∀ p ∈ addTo m k x, 0 ≤ p.2 := by
  intro p hp
  unfold addTo at hp
  rcases List.mem_map.mp hp with ⟨q, hq, rfl⟩
  split
  · exact add_nonneg (hm q hq) hx
  · exact hm q hq

lemma binStep_nonneg (a b w : Int) (p : ℚ) (m : List (String × ℚ)) (bin : RBin)
    (hm : ∀ q ∈ m, 0 ≤ q.2) (hp : 0 ≤ p) (hw : 0 < w) :
    ∀ q ∈ binStep a b w p m bin, 0 ≤ q.2 := by
  simp only [binStep]
  split_ifs with hc
  · apply addTo_nonneg _ _ _ hm
    have hc2 : ((0 : Int) : ℚ) ≤ ((min b bin.high - max a bin.low + 1 : Int) : ℚ) := by
      exact_mod_cast (by omega : (0 : Int) ≤ min b bin.high - max a bin.low + 1)
    have hwQ : (0 : ℚ) ≤ ((w : Int) : ℚ) :=
      (by exact_mod_cast hw.le : ((0 : Int) : ℚ) ≤ ((w : Int) : ℚ))
    exact mul_nonneg hp (div_nonneg (by exact_mod_cast hc2) hwQ)
  · exact hm

lemma foldl_binStep_nonneg (a b w : Int) (p : ℚ) (hp : 0 ≤ p) (hw : 0 < w) :
    ∀ (bs : List RBin) (m : List (String × ℚ)), (∀ q ∈ m, 0 ≤ q.2) →
      ∀ q ∈ bs.foldl (binStep a b w p) m, 0 ≤ q.2 := by
  intro bs
  induction bs with
  | nil => intro m hm; exact hm
  | cons y t ih =>
    intro m hm
    rw [List.foldl_cons]
    exact ih _ (binStep_nonneg a b w p m y hm hp hw)

lemma processRange_nonneg (bins : List RBin) (mh : Int) (m : List (String × ℚ))
    (rr : ReportedRange) (hm : ∀ q ∈ m, 0 ≤ q.2) (hp : 0 ≤ rr.pct) :
    ∀ q ∈ processRange bins mh m rr, 0 ≤ q.2 := by
  simp only [processRange]
  generalize (if rr.high > mh then mh else rr.high) = b
  split_ifs with h1 h2
  · exact hm
  · exact hm
  · exact foldl_binStep_nonneg rr.low b (b - rr.low + 1) rr.pct hp (by omega) bins m hm

lemma allocRaw_nonneg (bins : List RBin) (rs : List ReportedRange)
    (hp : ∀ rr ∈ rs, 0 ≤ rr.pct) : ∀ q ∈ allocRaw bins rs, 0 ≤ q.2 := by
  rw [allocRaw]
  have hinit : ∀ q ∈ initOut bins, 0 ≤ q.2 := by
    intro q hq; rw [initOut_values bins q hq]
  generalize initOut bins = m at hinit ⊢
  induction rs generalizing m with
  | nil => exact hinit
  | cons rr t ih =>
    rw [List.foldl_cons]
    exact ih (fun x hx => hp x (List.mem_cons_of_mem _ hx)) _
      (processRange_nonneg bins (max_high bins) m rr hinit
        (hp rr (List.mem_cons_self _ _)))

/-- C10: when every input percentage is nonnegative, every value of the
allocator output is nonnegative, both before the optional normalization
(the raw accumulator) and after it (the rescale factor 100/total is
positive whenever it is applied). -/
theorem claim_c10_nonneg (bins : List RBin) (rs : List ReportedRange)
    (hp : ∀ rr ∈ rs, 0 ≤ rr.pct) :
    (∀ q ∈ allocRaw bins rs, 0 ≤ q.2) ∧
    (∀ q ∈ allocate_to_bins bins rs, 0 ≤ q.2) := by
  have hraw := allocRaw_nonneg bins rs hp
  refine ⟨hraw, ?_⟩
  simp only [allocate_to_bins]
  split_ifs with hc
  · intro q hq
    rcases List.mem_map.mp hq with ⟨x, hx, rfl⟩
    have htotpos : (0 : ℚ) < sumValues (allocRaw bins rs) := by
      have := hc.1.1
      linarith
    exact mul_nonneg (hraw x hx) (div_nonneg (by norm_num) htotpos.le)
  · exact hraw

/-- C10 witness: nonnegativity at the concrete scenario-1 input against the
default bins. -/
theorem claim_c10_witness :
    (∀ q ∈ allocRaw BINS scenario1, 0 ≤ q.2) ∧
    (∀ q ∈ allocate_to_bins BINS scenario1, 0 ≤ q.2) :=
  claim_c10_nonneg BINS scenario1 (by intro rr hr; fin_cases hr <;> norm_num)

/-- C5 counterexample: for the reported range low 1, high 5 (no ceiling
clipping, width 5, no units beyond max_high), the per-bin overlap-unit
counts over the default bins sum to 2, not to width minus the units beyond
max_high, which is 5: the three units 1, 2, 3 below the first bin are also
lost, refuting the claim as stated. -/
theorem claim_c5_counterexample :
    (BINS.map (fun bin =>
      overlapCount 1 (if (5 : Int) > max_high BINS then max_high BINS else 5)
        bin)).sum = 2 ∧
    ((5 : Int) - 1 + 1) - (max 0 (5 - max_high BINS)) = 5 ∧ (2 : Int) ≠ 5 := by
  decide

set_option maxHeartbeats 1000000 in
/-- C5 amended: for every reported range [a, b] whose ceiling-clipped form
is non-degenerate, the per-bin overlap-unit counts over the default bins
sum to the range width minus the units beyond max_high minus the units of
the clipped range below the first bin's lower bound: units are conserved
except for ceiling clipping and for floor loss below the lowest bin. -/
theorem claim_c5_unit_conservation (a b : Int)
    (h : a ≤ (if b > max_high BINS then max_high BINS else b)) :
    (BINS.map (fun bin =>
      overlapCount a (if b > max_high BINS then max_high BINS else b) bin)).sum =
      (b - a + 1) - (max 0 (b - max_high BINS)) -
        (max 0 (min (if b > max_high BINS then max_high BINS else b) 3 - a + 1)) := by
  have hmh : max_high BINS = 40 := rfl
  rw [hmh] at h ⊢
  rcases le_or_lt b 40 with hb | hb
  · rw [if_neg (not_lt.mpr hb)] at h ⊢
    simp only [BINS, overlapCount, List.map_cons, List.map_nil, List.sum_cons,
      List.sum_nil]
    split_ifs <;> omega
  · rw [if_pos hb] at h ⊢
    simp only [BINS, overlapCount, List.map_cons, List.map_nil, List.sum_cons,
      List.sum_nil]
    split_ifs <;> omega

/-- C5 witness: the amended conservation law instantiated on the concrete
range low 1, high 5. -/
theorem claim_c5_witness :
    (BINS.map (fun bin =>
      overlapCount 1 (if (5 : Int) > max_high BINS then max_high BINS else 5)
        bin)).sum =
      ((5 : Int) - 1 + 1) - (max 0 (5 - max_high BINS)) -
        (max 0 (min (if (5 : Int) > max_high BINS then max_high BINS else 5) 3
          - 1 + 1)) :=
  claim_c5_unit_conservation 1 5 (by decide)

lemma list_sum_map_zero (l : List RBin) (f : RBin → ℚ) (h : ∀ x ∈ l, f x = 0) :
    (l.map f).sum = 0 :=
  List.sum_eq_zero (by
    intro x hx
    rcases List.mem_map.mp hx with ⟨y, hy, rfl⟩
    exact h y hy)

lemma sum_map_ite_eq (l : List RBin) (bi : RBin) (c : ℚ) (hl : l.Nodup)
    (hmem : bi ∈ l) : (l.map fun x => if x = bi then c else 0).sum = c := by
  induction l with
  | nil => simp at hmem
  | cons y t ih =>
    rw [List.map_cons, List.sum_cons]
    rcases List.mem_cons.mp hmem with rfl | hm
    · rw [if_pos rfl]
      have hz : ∀ x ∈ t, (if x = bi then c else 0) = 0 := by
        intro x hx
        exact if_neg
          (fun h : x = bi => (List.nodup_cons.mp hl).1 (by rw [← h]; exact hx))
      rw [list_sum_map_zero t _ hz, add_zero]
    · have hyne : y ≠ bi :=
        fun h => (List.nodup_cons.mp hl).1 (by rw [h]; exact hm)
      rw [if_neg hyne, ih (List.nodup_cons.mp hl).2 hm, zero_add]

lemma initOut_foldl_keys (l : List RBin) :
    ∀ acc : List (String × ℚ),
      (∀ x ∈ l, x.label ∉ acc.map Prod.fst) →
      ((l.map (fun x => x.label)).Nodup) →
      (l.foldl
        (fun m b =>
          if m.any (fun p => p.1 == b.label) then m else m ++ [(b.label, 0)])
        acc).map Prod.fst = acc.map Prod.fst ++ l.map (fun x => x.label) := by
  induction l with
  | nil => intro acc _ _; simp
  | cons y t ih =>
    intro acc hacc hnd
    rw [List.map_cons] at hnd
    obtain ⟨hy, hndt⟩ := List.nodup_cons.mp hnd
    rw [List.foldl_cons]
    have hany : acc.any (fun p => p.1 == y.label) = false := by
      rw [List.any_eq_false]
      intro q hq hqk
      exact hacc y (List.mem_cons_self _ _)
        ((by simpa using hqk : q.1 = y.label) ▸ List.mem_map_of_mem Prod.fst hq)
    simp only [hany, Bool.false_eq_true, if_false]
    rw [ih (acc ++ [(y.label, 0)]) ?hmemnew ?hnodupnew]
    · simp
    case hmemnew =>
      intro x hx
      rw [List.map_append, List.mem_append]
      rintro (hxa | hxy)
      · exact hacc x (List.mem_cons_of_mem _ hx) hxa
      · have : x.label = y.label := by simpa using hxy
        exact hy (this ▸ List.mem_map_of_mem (fun z => z.label) hx)
    case hnodupnew => exact hndt

lemma initOut_keys_of_nodup (bins : List RBin)
    (h : (bins.map (fun x => x.label)).Nodup) :
    (initOut bins).map Prod.fst = bins.map (fun x => x.label) := by
  unfold initOut
  have := initOut_foldl_keys bins [] (by simp) h
  simpa using this

lemma initOut_countP_of_nodup (bins : List RBin)
    (h : (bins.map (fun x => x.label)).Nodup) :
    ∀ x ∈ bins, (initOut bins).countP (fun q => q.1 == x.label) = 1 := by
  intro x hx
  rw [countP_keys, initOut_keys_of_nodup bins h]
  have hcnt : ((bins.map (fun z => z.label)).countP (fun t => t == x.label)) =
      (bins.map (fun z => z.label)).count x.label := rfl
  rw [hcnt]
  exact List.count_eq_one_of_mem h (List.mem_map_of_mem _ hx)

lemma allocRaw_single (bins : List RBin) (a b : Int) (p : ℚ)
    (hab : a ≤ b) (hbm : b ≤ max_high bins) :
    allocRaw bins [⟨a, b, p⟩] =
      bins.foldl (binStep a b (b - a + 1) p) (initOut bins) := by
  simp only [allocRaw, List.foldl_cons, List.foldl_nil, processRange]
  rw [if_neg (not_lt.mpr hbm), if_neg (not_lt.mpr hab),
    if_neg (by omega : ¬(b - a + 1 ≤ 0))]

/-- C3 counterexample: the single range [6, 10] with percentage 99 lies
fully inside the bin C6–C10, yet the allocator output at that bin is 100,
not the range's own percentage 99: the gentle normalization rescales totals
inside [99, 101], so the claim as stated fails. -/
theorem claim_c3_counterexample :
    getVal (allocate_to_bins BINS [⟨6, 10, 99⟩]) "C6–C10" = 100 ∧
    (100 : ℚ) ≠ 99 := by
  constructor
  · have hraw : allocRaw BINS [⟨6, 10, 99⟩] =
        [("C4–C5", 0), ("C6–C10", 99), ("C11–C15", 0), ("C16–C20", 0),
         ("C21–C40", 0)] := by
      simp +decide only [allocRaw, processRange, binStep, addTo, initOut, max_high,
        BINS, List.foldl, List.any, List.map]
      norm_num
    have htot : sumValues (allocRaw BINS [⟨6, 10, 99⟩]) = 99 := by
      rw [hraw]; simp only [sumValues, List.map]; norm_num
    simp only [allocate_to_bins, htot]
    rw [if_pos (by norm_num), getVal_map_scale, hraw]
    rw [getVal_cons_ne ("C4–C5", 0) _ "C6–C10" (by decide),
      getVal_cons_eq ("C6–C10", 99) _ "C6–C10" (by decide)]
    norm_num
  · norm_num

/-- C3 amended: for every non-empty bin configuration with distinct labels
and pairwise-disjoint bins, a single reported range lying fully inside one
bin puts its entire percentage on that bin before normalization and 0 on
every other bin; the final output at that bin is the percentage itself when
the total is outside the normalization window [99, 101] (or zero), and is
exactly 100 when it lies inside the window, while every other bin stays 0. -/
theorem claim_c3_full_containment (bins : List RBin) (bi : RBin) (a b : Int)
    (p : ℚ) (hmem : bi ∈ bins) (hnodup : (bins.map (fun x => x.label)).Nodup)
    (hdisj : bins.Pairwise (fun x y => x.high < y.low ∨ y.high < x.low))
    (hla : bi.low ≤ a) (hab : a ≤ b) (hbu : b ≤ bi.high) :
    getVal (allocRaw bins [⟨a, b, p⟩]) bi.label = p ∧
    getVal (allocate_to_bins bins [⟨a, b, p⟩]) bi.label =
      (if (99 ≤ p ∧ p ≤ 101) ∧ p ≠ 0 then 100 else p) ∧
    ∀ bin ∈ bins, bin.label ≠ bi.label →
      getVal (allocRaw bins [⟨a, b, p⟩]) bin.label = 0 ∧
      getVal (allocate_to_bins bins [⟨a, b, p⟩]) bin.label = 0 := by
  have hwQ : ((b - a + 1 : Int) : ℚ) ≠ 0 := by
    exact_mod_cast (by omega : (b - a + 1 : Int) ≠ 0)
  have hsym : Symmetric (fun x y : RBin => x.high < y.low ∨ y.high < x.low) :=
    fun x y h => h.symm
  have hpair := List.Pairwise.forall hsym hdisj
  have hinj : ∀ x ∈ bins, x.label = bi.label → x = bi :=
    fun x hx h => List.inj_on_of_nodup_map hnodup hx hmem h
  have hraw := allocRaw_single bins a b p hab
    (le_trans hbu (mem_le_max_high bins bi hmem))
  have hcbi : overlapCount a b bi = b - a + 1 := by
    unfold overlapCount
    rw [max_eq_left hla, min_eq_left hbu, if_pos hab]
  have hc0 : ∀ x ∈ bins, x.label ≠ bi.label → overlapCount a b x = 0 := by
    intro x hx hlbl
    have hxne : x ≠ bi := fun h => hlbl (by rw [h])
    have hd := hpair hx hmem hxne
    rcases hd with h | h <;> (unfold overlapCount; rw [if_neg (by omega)])
  have hgv : ∀ s : String, getVal (allocRaw bins [⟨a, b, p⟩]) s =
      ((bins.map fun x =>
        if x.label = s then
          p * ((overlapCount a b x : ℚ) / ((b - a + 1 : Int) : ℚ))
        else 0)).sum := by
    intro s
    rw [hraw, foldl_binStep_getVal a b (b - a + 1) p s bins (initOut bins)
      (initOut_mem_keys bins), getVal_initOut, zero_add]
  have hgvbi : getVal (allocRaw bins [⟨a, b, p⟩]) bi.label = p := by
    rw [hgv bi.label]
    have hcongr : ∀ x ∈ bins,
        (if x.label = bi.label then
          p * ((overlapCount a b x : ℚ) / ((b - a + 1 : Int) : ℚ))
        else 0) = (if x = bi then p else 0) := by
      intro x hx
      by_cases h : x.label = bi.label
      · have hxbi := hinj x hx h
        subst hxbi
        rw [if_pos rfl, if_pos rfl, hcbi, div_self hwQ, mul_one]
      · rw [if_neg h, if_neg (fun hh => h (by rw [hh]))]
    rw [List.map_congr_left hcongr,
      sum_map_ite_eq bins bi p (hnodup.of_map) hmem]
  have hgv0 : ∀ bin ∈ bins, bin.label ≠ bi.label →
      getVal (allocRaw bins [⟨a, b, p⟩]) bin.label = 0 := by
    intro bin hbin hlbl
    rw [hgv bin.label]
    apply list_sum_map_zero
    intro x hx
    by_cases h : x.label = bin.label
    · rw [if_pos h]
      have hxlbl : x.label ≠ bi.label := by rw [h]; exact hlbl
      rw [hc0 x hx hxlbl]
      norm_num
    · rw [if_neg h]
  have htot : sumValues (allocRaw bins [⟨a, b, p⟩]) = p := by
    rw [hraw, foldl_binStep_sum a b (b - a + 1) p bins (initOut bins)
      (initOut_countP_of_nodup bins hnodup), sumValues_initOut, zero_add]
    have hcongr : ∀ x ∈ bins,
        p * ((overlapCount a b x : ℚ) / ((b - a + 1 : Int) : ℚ)) =
          (if x = bi then p else 0) := by
      intro x hx
      by_cases h : x.label = bi.label
      · have hxbi := hinj x hx h
        subst hxbi
        rw [if_pos rfl, hcbi, div_self hwQ, mul_one]
      · rw [if_neg (fun hh => h (by rw [hh])), hc0 x hx h]
        norm_num
    rw [List.map_congr_left hcongr,
      sum_map_ite_eq bins bi p (hnodup.of_map) hmem]
  have hallocVal : ∀ s : String, getVal (allocate_to_bins bins [⟨a, b, p⟩]) s =
      (if (99 ≤ p ∧ p ≤ 101) ∧ p ≠ 0 then
        getVal (allocRaw bins [⟨a, b, p⟩]) s * (100 / p)
      else getVal (allocRaw bins [⟨a, b, p⟩]) s) := by
    intro s
    simp only [allocate_to_bins, htot]
    split_ifs with h
    · rw [getVal_map_scale]
    · rfl
  refine ⟨hgvbi, ?_, ?_⟩
  · rw [hallocVal bi.label, hgvbi]
    split_ifs with h
    · exact mul_div_cancel₀ 100 h.2
    · rfl
  · intro bin hbin hlbl
    refine ⟨hgv0 bin hbin hlbl, ?_⟩
    rw [hallocVal bin.label, hgv0 bin hbin hlbl]
    split_ifs with h
    · rw [zero_mul]
    · rfl

/-- C3 witness: the boundary case of the claim, the range [6, 10] with
percentage 50 against the default bins, matching the C6–C10 bin exactly:
the whole 50 goes to that bin and every other bin gets 0. -/
theorem claim_c3_witness :
    getVal (allocRaw BINS [⟨6, 10, 50⟩]) "C6–C10" = 50 ∧
    getVal (allocate_to_bins BINS [⟨6, 10, 50⟩]) "C6–C10" =
      (if ((99 : ℚ) ≤ 50 ∧ (50 : ℚ) ≤ 101) ∧ (50 : ℚ) ≠ 0 then 100 else 50) ∧
    ∀ bin ∈ BINS, bin.label ≠ "C6–C10" →
      getVal (allocRaw BINS [⟨6, 10, 50⟩]) bin.label = 0 ∧
      getVal (allocate_to_bins BINS [⟨6, 10, 50⟩]) bin.label = 0 :=
  claim_c3_full_containment BINS ⟨6, 10, "C6–C10"⟩ 6 10 50 (by decide)
    (by decide) (by decide) (by decide) (by decide) (by decide)


lemma roundHalfEven_intCast (k : Int) : roundHalfEven ((k : Int) : ℚ) = k := by
  simp only [roundHalfEven, Int.floor_intCast]
  norm_num

lemma round3_idem (q : ℚ) : round3 (round3 q) = round3 q := by
  unfold round3
  rw [div_mul_cancel₀ _ (by norm_num : (1000 : ℚ) ≠ 0), roundHalfEven_intCast]

lemma except_bind_ok {α β : Type} (x : Except String α) (f : α → Except String β)
    (b : β) : (x >>= f) = Except.ok b ↔ ∃ a, x = Except.ok a ∧ f a = Except.ok b := by
  cases x with
  | error e => simp [Bind.bind, Except.bind]
  | ok a => simp [Bind.bind, Except.bind]

lemma pyInt_ok_iff (j : JVal) : (∃ n, pyInt j = Except.ok n) ↔ IntReadable j := by
  cases j with
  | jstr s =>
    cases h : pyIntOfStr s with
    | none => simp [pyInt, IntReadable, h]
    | some n => simp [pyInt, IntReadable, h]
  | jnum q => simp [pyInt, IntReadable]
  | jbool b => simp [pyInt, IntReadable]
  | jnull => simp [pyInt, IntReadable]
  | jarr l => simp [pyInt, IntReadable]
  | jobj o => simp [pyInt, IntReadable]

lemma pyFloat_ok_iff (j : JVal) : (∃ q, pyFloat j = Except.ok q) ↔ FloatReadable j := by
  cases j with
  | jstr s =>
    cases h : pyFloatOfStr s with
    | none => simp [pyFloat, FloatReadable, h]
    | some q => simp [pyFloat, FloatReadable, h]
  | jnum q => simp [pyFloat, FloatReadable]
  | jbool b => simp [pyFloat, FloatReadable]
  | jnull => simp [pyFloat, FloatReadable]
  | jarr l => simp [pyFloat, FloatReadable]
  | jobj o => simp [pyFloat, FloatReadable]

lemma field_ok_iff {γ : Type} (o : List (String × JVal)) (k : String)
    (conv : JVal → Except String γ) (P : JVal → Prop)
    (hconv : ∀ j, (∃ x, conv j = Except.ok x) ↔ P j) :
    (∃ v, objField o k = Except.ok v ∧ ∃ x, conv v = Except.ok x) ↔
      FieldIs o k P := by
  unfold objField FieldIs
  cases h : o.find? (fun p => p.1 == k) with
  | none => simp [h]
  | some p =>
    simp only [h]
    constructor
    · rintro ⟨v, hv, x, hx⟩
      have hvp : p.2 = v := (Except.ok.injEq _ _).mp hv
      subst hvp
      exact (hconv p.2).mp ⟨x, hx⟩
    · intro hp
      obtain ⟨x, hx⟩ := (hconv p.2).mpr hp
      exact ⟨p.2, rfl, x, hx⟩

lemma parseRange_ok_iff (j : JVal) :
    (∃ rr, parseRange j = Except.ok rr) ↔ WellFormedEntry j := by
  cases j with
  | jobj o =>
    constructor
    · rintro ⟨rr, hrr⟩
      obtain ⟨lv, hlv, hrr⟩ := (except_bind_ok _ _ _).mp hrr
      obtain ⟨a, ha, hrr⟩ := (except_bind_ok _ _ _).mp hrr
      obtain ⟨hv, hhv, hrr⟩ := (except_bind_ok _ _ _).mp hrr
      obtain ⟨b, hb, hrr⟩ := (except_bind_ok _ _ _).mp hrr
      obtain ⟨pv, hpv, hrr⟩ := (except_bind_ok _ _ _).mp hrr
      obtain ⟨pct, hpct, _⟩ := (except_bind_ok _ _ _).mp hrr
      exact ⟨(field_ok_iff o "low" pyInt IntReadable pyInt_ok_iff).mp
          ⟨lv, hlv, a, ha⟩,
        (field_ok_iff o "high" pyInt IntReadable pyInt_ok_iff).mp
          ⟨hv, hhv, b, hb⟩,
        (field_ok_iff o "pct" pyFloat FloatReadable pyFloat_ok_iff).mp
          ⟨pv, hpv, pct, hpct⟩⟩
    · rintro ⟨h1, h2, h3⟩
      obtain ⟨lv, hlv, a, ha⟩ :=
        (field_ok_iff o "low" pyInt IntReadable pyInt_ok_iff).mpr h1
      obtain ⟨hv, hhv, b, hb⟩ :=
        (field_ok_iff o "high" pyInt IntReadable pyInt_ok_iff).mpr h2
      obtain ⟨pv, hpv, pct, hpct⟩ :=
        (field_ok_iff o "pct" pyFloat FloatReadable pyFloat_ok_iff).mpr h3
      exact ⟨⟨a, b, pct⟩,
        (except_bind_ok _ _ _).mpr ⟨lv, hlv,
          (except_bind_ok _ _ _).mpr ⟨a, ha,
            (except_bind_ok _ _ _).mpr ⟨hv, hhv,
              (except_bind_ok _ _ _).mpr ⟨b, hb,
                (except_bind_ok _ _ _).mpr ⟨pv, hpv,
                  (except_bind_ok _ _ _).mpr ⟨pct, hpct, rfl⟩⟩⟩⟩⟩⟩⟩
  | jnum q => simp [parseRange, WellFormedEntry]
  | jstr s => simp [parseRange, WellFormedEntry]
  | jbool b => simp [parseRange, WellFormedEntry]
  | jnull => simp [parseRange, WellFormedEntry]
  | jarr l => simp [parseRange, WellFormedEntry]

lemma mapM_ok_iff {α β : Type} (f : α → Except String β) (l : List α) :
    (∃ bl, l.mapM f = Except.ok bl) ↔ ∀ x ∈ l, ∃ b, f x = Except.ok b := by
  induction l with
  | nil =>
    constructor
    · intro _ e he
      exact absurd he (List.not_mem_nil e)
    · intro _
      exact ⟨[], rfl⟩
  | cons e es ih =>
    rw [List.mapM_cons]
    constructor
    · rintro ⟨bl, hbl⟩
      obtain ⟨b, hb, hbl⟩ := (except_bind_ok _ _ _).mp hbl
      obtain ⟨bs, hbs, _⟩ := (except_bind_ok _ _ _).mp hbl
      intro x hx
      rcases List.mem_cons.mp hx with rfl | hx
      · exact ⟨b, hb⟩
      · exact ih.mp ⟨bs, hbs⟩ x hx
    · intro hall
      obtain ⟨b, hb⟩ := hall e (List.mem_cons_self _ _)
      obtain ⟨bs, hbs⟩ := ih.mpr (fun x hx => hall x (List.mem_cons_of_mem _ hx))
      exact ⟨b :: bs, (except_bind_ok _ _ _).mpr
        ⟨b, hb, (except_bind_ok _ _ _).mpr ⟨bs, hbs, rfl⟩⟩⟩

lemma parseRanges_ok_iff (j : JVal) :
    (∃ rl, parseRanges j = Except.ok rl) ↔ WellFormedRanges j := by
  cases j with
  | jarr l =>
    rw [show parseRanges (JVal.jarr l) = l.mapM parseRange from rfl,
      mapM_ok_iff]
    show _ ↔ ∀ e ∈ l, WellFormedEntry e
    exact forall_congr' fun e => forall_congr' fun _ => parseRange_ok_iff e
  | jnum q => simp [parseRanges, WellFormedRanges]
  | jstr s => simp [parseRanges, WellFormedRanges]
  | jbool b => simp [parseRanges, WellFormedRanges]
  | jnull => simp [parseRanges, WellFormedRanges]
  | jobj o => simp [parseRanges, WellFormedRanges]

lemma buildRow_ok_iff (r : String × JVal) :
    (∃ row, buildRow r = Except.ok row) ↔ WellFormedRanges r.2 := by
  rw [← parseRanges_ok_iff]
  unfold buildRow
  cases h : parseRanges r.2 with
  | error e =>
    simp [h, Bind.bind, Except.bind]
  | ok rl =>
    simp [h, Bind.bind, Except.bind]

lemma build_ok_iff (records : List (String × JVal)) :
    (∃ t, build_harmonized_table records = Except.ok t) ↔
      ∀ r ∈ records, WellFormedRanges r.2 := by
  rw [build_harmonized_table, mapM_ok_iff]
  exact forall_congr' fun r => forall_congr' fun _ => buildRow_ok_iff r

lemma buildRow_ok_shape (r : String × JVal) (row : String × List ℚ)
    (h : buildRow r = Except.ok row) :
    ∃ ranges, row = (r.1, BINS.map fun bin =>
      round3 (getVal (allocate_to_bins BINS ranges) bin.label)) := by
  unfold buildRow at h
  cases hpr : parseRanges r.2 with
  | error e =>
    rw [hpr] at h
    exact absurd h (by simp [Bind.bind, Except.bind])
  | ok ranges =>
    rw [hpr] at h
    simp only [Bind.bind, Except.bind, Except.ok.injEq] at h
    exact ⟨ranges, h.symm⟩

/-- C7 counterexample: on the scenario-1 input the allocator itself returns
the C6–C10 value 125/3 = 41.666..., which is not a 3-decimal value: the
allocator does not round; rounding happens in the table builder. -/
theorem claim_c7_counterexample :
    getVal (allocate_to_bins BINS scenario1) "C6–C10" = 125/3 ∧
    round3 (getVal (allocate_to_bins BINS scenario1) "C6–C10") ≠
      getVal (allocate_to_bins BINS scenario1) "C6–C10" := by
  have hv : getVal (allocate_to_bins BINS scenario1) "C6–C10" = 125/3 := by
    simp only [allocate_to_bins, sum_scenario1]
    rw [if_pos (by norm_num), getVal_map_scale, allocRaw_scenario1_eq,
      getVal_cons_ne ("C4–C5", 0) _ "C6–C10" (by decide),
      getVal_cons_eq ("C6–C10", 125/3) _ "C6–C10" (by decide)]
    norm_num
  refine ⟨hv, ?_⟩
  rw [hv]
  have h1000 : (125/3 : ℚ) * 1000 = 125000/3 := by norm_num
  have hfl : ⌊(125000/3 : ℚ)⌋ = 41666 := by
    rw [Int.floor_eq_iff]
    constructor <;> norm_num
  simp only [round3, roundHalfEven, h1000, hfl]
  norm_num

/-- C7 amended: the table builder, not the allocator, rounds: every value
of every row of a successfully built harmonized table is a fixed point of
rounding to 3 decimal digits. -/
theorem claim_c7_table_rounded (records : List (String × JVal))
    (t : List (String × List ℚ))
    (h : build_harmonized_table records = Except.ok t) :
    ∀ row ∈ t, ∀ v ∈ row.2, round3 v = v := by
  induction records generalizing t with
  | nil =>
    have h2 : (Except.ok [] : Except String (List (String × List ℚ))) =
        Except.ok t := h
    have ht : t = [] := ((Except.ok.injEq _ _).mp h2).symm
    subst ht
    intro row hrow
    exact absurd hrow (List.not_mem_nil row)
  | cons r rs ih =>
    rw [build_harmonized_table, List.mapM_cons] at h
    obtain ⟨row, hFr, h2⟩ := (except_bind_ok _ _ _).mp h
    obtain ⟨ts, hrest, h3⟩ := (except_bind_ok _ _ _).mp h2
    have h4 : (Except.ok (row :: ts) : Except String (List (String × List ℚ))) =
        Except.ok t := h3
    have ht : t = row :: ts := ((Except.ok.injEq _ _).mp h4).symm
    subst ht
    obtain ⟨ranges, hrow⟩ := buildRow_ok_shape r row hFr
    intro row2 hrow2
    rcases List.mem_cons.mp hrow2 with rfl | hmem2
    · intro v hv
      rw [hrow] at hv
      rcases List.mem_map.mp hv with ⟨bin, _, rfl⟩
      exact round3_idem _
    · exact ih ts hrest row2 hmem2

/-- C7 witness: a one-record batch with a well-formed single-range JSON
encoding builds successfully and every cell of the resulting table is a
3-decimal fixed point. -/
theorem claim_c7_witness :
    ∃ t, build_harmonized_table
        [("paper", JVal.jarr [JVal.jobj
          [("low", JVal.jnum 6), ("high", JVal.jnum 11),
           ("pct", JVal.jnum 50)]])] = Except.ok t ∧
      ∀ row ∈ t, ∀ v ∈ row.2, round3 v = v := by
  have hwf : ∀ r ∈ ([("paper", JVal.jarr [JVal.jobj
      [("low", JVal.jnum 6), ("high", JVal.jnum 11),
       ("pct", JVal.jnum 50)]])] : List (String × JVal)),
      WellFormedRanges r.2 := by
    intro r hr
    rw [List.mem_singleton] at hr
    subst hr
    show ∀ e ∈ [JVal.jobj [("low", JVal.jnum 6), ("high", JVal.jnum 11),
      ("pct", JVal.jnum 50)]], WellFormedEntry e
    intro e he
    rw [List.mem_singleton] at he
    subst he
    exact ⟨trivial, trivial, trivial⟩
  obtain ⟨t, ht⟩ := (build_ok_iff _).mpr hwf
  exact ⟨t, ht, claim_c7_table_rounded _ t ht⟩
